import Mathlib

/-!
Verification of the change-detection and incremental-publishing pipeline of
the `repost_magti_news` program (repository LogicDaemon/tgbot).

The repository holds two evolutionary snapshots of one Go program:
* `repost_magti_news.go` — dispatch loop iterates the newest-first listing in
  reverse and skips an item only when its url equals the current (mutating)
  `last_post_url`; the ledger is saved after each successful send.
* the unnamed snapshot (`part_000`) — dispatch collects `newItems` by scanning
  newest-first until the stored url is found, publishes the collected items
  oldest-first, and saves the ledger once, after the whole batch.

Go strings are modelled as `List Char` where character-level scanning matters
(the content formatter) and as Lean `String` where they are only compared for
equality (urls, titles). External collaborators (HTTP, goquery HTML parsing,
the Telegram API, the filesystem) are modelled at their interfaces: the HTML
parser as the node sequence `goquery`'s selection yields, the publish sink as
a success oracle `NewsItem → Bool`, and the ledger file as an inductive state.
-/

namespace Tgbot

/-! ### Content formatter (`parseHtmlContent`, both snapshots, lines 361-409 /
331-384)

`strings.ReplaceAll(content, "\n\n\n", "\n\n")`: scan left to right; at a
match emit the two-newline replacement and continue after the matched text. -/

def replaceNNN : List Char → List Char
  | '\n' :: '\n' :: '\n' :: rest => '\n' :: '\n' :: replaceNNN rest
  | c :: rest => c :: replaceNNN rest
  | [] => []

/-- Model of `strings.Contains(content, "\n\n\n")`. -/
def containsNNN : List Char → Bool
  | '\n' :: '\n' :: '\n' :: _ => true
  | _ :: rest => containsNNN rest
  | [] => false

/-- The `for strings.Contains(...) { content = strings.ReplaceAll(...) }` loop.
Each iteration shortens the string (proved in `length_replaceNNN_lt`), so
`s.length` rounds of fuel always suffice; `collapseNewlines_eq_loop` below
shows this definition satisfies the loop's defining equation. -/
def collapseGo : Nat → List Char → List Char
  | 0, s => s
  | fuel + 1, s => if containsNNN s then collapseGo fuel (replaceNNN s) else s

def collapseNewlines (s : List Char) : List Char :=
  collapseGo s.length s

/-- Model of `strings.ReplaceAll(content, "&nbsp;", " ")`. -/
def replaceNbsp : List Char → List Char
  | '&' :: 'n' :: 'b' :: 's' :: 'p' :: ';' :: rest => ' ' :: replaceNbsp rest
  | c :: rest => c :: replaceNbsp rest
  | [] => []

/-- Characters stripped by Go's `strings.TrimSpace` (ASCII white space;
the inputs at stake contain no exotic Unicode spaces). -/
def isSpaceChar (c : Char) : Bool :=
  c == ' ' || c == '\n' || c == '\t' || c == '\r' || c == '\x0b' || c == '\x0c'

def trimSpace (s : List Char) : List Char :=
  ((s.dropWhile isSpaceChar).reverse.dropWhile isSpaceChar).reverse

/-- Tags the selector `doc.Find("p, ul, li")` can yield. -/
inductive HTag
  | p
  | ul
  | li
deriving DecidableEq, Repr

/-- One node of the goquery selection, in document order: its tag and the
text `s.Text()` returns (the concatenated text of all descendants). -/
structure HNode where
  tag : HTag
  text : String
deriving DecidableEq, Repr

/-- What the `doc.Find("p, ul, li").Each` body writes to the builder for one
node (`repost_magti_news.go` lines 372-395): trimmed text, skipped when empty;
paragraphs followed by a blank line, list items prefixed with a bullet, the
list container itself emitting nothing. -/
def nodeOut (n : HNode) : List Char :=
  let text := trimSpace n.text.data
  if text = [] then []
  else
    match n.tag with
    | .p => text ++ ['\n', '\n']
    | .ul => []
    | .li => '•' :: ' ' :: (text ++ ['\n'])

/-- `parseHtmlContent` (`repost_magti_news.go` lines 361-409) on an already
parsed document, represented by the node sequence the selector yields. The
goquery parse step itself (and its return-input-unchanged failure fallback)
is outside the embedding. -/
def parseHtmlContent (nodes : List HNode) : List Char :=
  trimSpace (collapseNewlines (replaceNbsp (nodes.map nodeOut).flatten))

/-- Node sequence goquery's `Find("p, ul, li")` yields, in document order, for
the input `"<p>Hello</p><ul><li>One</li><li>Two</li></ul>"`: the paragraph,
the list container (whose `Text()` concatenates its items), then the items. -/
def exampleNodes : List HNode :=
  [⟨.p, "Hello"⟩, ⟨.ul, "OneTwo"⟩, ⟨.li, "One"⟩, ⟨.li, "Two"⟩]

/-! ### The spec's characterization of newline collapsing

Modelled from the spec: "Any run of three or more consecutive newlines is
collapsed to exactly two (one blank line)". `normRuns` shortens every maximal
newline run of length three or more, one newline at a time, down to exactly
two, and leaves everything else unchanged; `collapseNewlines_eq_normRuns`
below proves the source's iterated-replacement loop computes exactly this. -/

def normRuns : List Char → List Char
  | [] => []
  | [c] => [c]
  | [c, d] => [c, d]
  | c :: d :: e :: rest =>
    if c = '\n' ∧ d = '\n' ∧ e = '\n' then normRuns (d :: e :: rest)
    else c :: normRuns (d :: e :: rest)

def dropNl (s : List Char) : List Char :=
  s.dropWhile (fun c => c == '\n')

/-- Decides whether a string begins with a triple newline (the head case of
both `replaceNNN` and `containsNNN`). -/
def isTripleHead : List Char → Bool
  | '\n' :: '\n' :: '\n' :: _ => true
  | _ => false

/-! ### Data model and collaborator interfaces -/

/-- `NewsItem` (both snapshots). -/
structure NewsItem where
  title : String
  url : String
  date : String
  text : String
  sectionContent : String
deriving DecidableEq, Repr

/-- `LastPostData`: the pointer-form publish ledger. -/
structure LastPostData where
  lastPostURL : String
deriving DecidableEq, Repr

/-- State of the `last_post.json` ledger file as `loadLastPostData` can
encounter it: missing, present but unreadable/unparsable, or parsed. -/
inductive LedgerFile
  | missing
  | corrupt
  | stored (d : LastPostData)

/-- `loadLastPostData` (both snapshots, lines 211-230 / 211-232): a missing
file yields an empty pointer without error; a read or JSON-parse failure
yields an error. -/
def loadLastPostData : LedgerFile → Except String LastPostData
  | .missing => .ok ⟨""⟩
  | .corrupt => .error "error parsing last post data file"
  | .stored d => .ok d

/-- Observable actions of one run: a Publish Sink call (`sendToTelegram`)
with its outcome, and a ledger persist (`saveLastPostData`) with the url it
records. -/
inductive Event
  | send (item : NewsItem) (ok : Bool)
  | save (url : String)
deriving DecidableEq, Repr

def isSendEvent : Event → Bool
  | .send _ _ => true
  | .save _ => false

/-- The sink calls of a trace, in order. -/
def sendsOf (tr : List Event) : List Event :=
  tr.filter isSendEvent

/-! ### Dispatch, unnamed snapshot (`part_000` `Run`, lines 481-543)

The collection loop, the oldest-first publish loop with a single save after
the batch, and the anchor-missing branch. -/

/-- The `for _, item := range news` loop of `part_000`: append items until one
whose url equals the stored pointer (that item excluded, loop broken there);
the flag is `foundLastPost`. -/
def collectNew (lastURL : String) : List NewsItem → List NewsItem × Bool
  | [] => ([], false)
  | item :: rest =>
    if item.url = lastURL then ([], true)
    else
      let r := collectNew lastURL rest
      (item :: r.1, r.2)

/-- Dispatch of `part_000`'s `Run` after the listing fetch, driven by a sink
success oracle. Returns the event trace and the final persisted pointer.
An empty listing returns early. With collected `newItems` non-empty, items
are sent oldest-first (failures only skip the save-nothing `continue`), then
the single save records `newItems[0].URL`. Otherwise, when the pointer was
not found and is non-empty, the newest item alone is sent and the pointer is
advanced only on success. -/
def runPointer (sendOk : NewsItem → Bool) (last : String) :
    List NewsItem → List Event × String
  | [] => ([], last)
  | n0 :: rest =>
    let c := collectNew last (n0 :: rest)
    match c.1 with
    | ni0 :: _ =>
      (c.1.reverse.map (fun it => Event.send it (sendOk it)) ++
        [Event.save ni0.url], ni0.url)
    | [] =>
      if c.2 = false ∧ last ≠ "" then
        if sendOk n0 then
          ([Event.send n0 true, Event.save n0.url], n0.url)
        else
          ([Event.send n0 false], last)
      else ([], last)

/-! ### Dispatch, `repost_magti_news.go` `Run` (lines 505-529)

`for i := len(news) - 1; i >= 0; i--` over the newest-first listing is a pass
over `news.reverse`; each item is skipped when its url equals the current
value of `lastPostData.LastPostURL`, otherwise sent, and on success the
ledger is updated and saved before the next item. -/

def runSkipGo (sendOk : NewsItem → Bool) (cur : String) :
    List NewsItem → List Event × String
  | [] => ([], cur)
  | item :: rest =>
    if item.url = cur then runSkipGo sendOk cur rest
    else if sendOk item then
      let r := runSkipGo sendOk item.url rest
      (Event.send item true :: Event.save item.url :: r.1, r.2)
    else
      let r := runSkipGo sendOk cur rest
      (Event.send item false :: r.1, r.2)

def runSkip (sendOk : NewsItem → Bool) (last : String)
    (news : List NewsItem) : List Event × String :=
  runSkipGo sendOk last news.reverse

/-! ### Item extractor (`fetchWonderDaysNews` / `fetchArticleContent`) -/

/-- One listing entry as the selector
`#article > article > div.post-listing.top-line > div > a` yields it: the
anchor's text, its `href` attribute when present, and the `span.post-date`
text. -/
structure ListingEntry where
  text : String
  href : Option String
  postDate : String
deriving Repr

def startsWithHttp : List Char → Bool
  | 'h' :: 't' :: 't' :: 'p' :: _ => true
  | _ => false

/-- `strings.TrimPrefix(url, "/")`. -/
def dropLeadingSlash : List Char → List Char
  | '/' :: rest => rest
  | s => s

/-- Relative-to-absolute url resolution of `fetchWonderDaysNews`. -/
def resolveUrl (u : String) : String :=
  if startsWithHttp u.data then u
  else String.mk ("https://www.magticom.ge/".data ++ dropLeadingSlash u.data)

/-- What one `Each` iteration of `part_000`'s `fetchWonderDaysNews`
(lines 297-325) appends for an entry, given the content fetcher
(`fetchArticleContent`, modelled as returning `(Text, SectionContent)` or
failing): entries without `href` are dropped; a fetch failure logs a warning
and leaves `Text`/`SectionContent` at their zero values, the item still
emitted. -/
def mkNewsItem (fetch : String → Option (String × String))
    (e : ListingEntry) : Option NewsItem :=
  match e.href with
  | none => none
  | some u =>
    let url := resolveUrl u
    match fetch url with
    | none =>
      some ⟨String.mk (trimSpace e.text.data), url, e.postDate, "", ""⟩
    | some (c, sc) =>
      some ⟨String.mk (trimSpace e.text.data), url, e.postDate, c, sc⟩

def fetchWonderDaysNews (fetch : String → Option (String × String))
    (entries : List ListingEntry) : List NewsItem :=
  entries.filterMap (mkNewsItem fetch)

/-! ### Concrete fixtures for counterexamples and witnesses -/

def mkItem (u : String) : NewsItem := ⟨"Wonder Days", u, "", "", ""⟩

def itA : NewsItem := mkItem "https://www.magticom.ge/a"
def itB : NewsItem := mkItem "https://www.magticom.ge/b"
def itC : NewsItem := mkItem "https://www.magticom.ge/c"

def allOk : NewsItem → Bool := fun _ => true

def entE : ListingEntry := ⟨" Wonder Days ", some "/en/promo", "1 May"⟩
def entF : ListingEntry :=
  ⟨"Other", some "https://www.magticom.ge/other", "2 May"⟩

/-! ### Per-item persistence of ledger updates -/

/-- True when a save recording `u` occurs in the trace before any further
sink call. -/
def savedBeforeNextSend (u : String) : List Event → Bool
  | [] => true
  | .save v :: rest => if v == u then true else savedBeforeNextSend u rest
  | .send _ _ :: _ => false

/-- The trace discipline the spec's ledger lifecycle demands: after every
successful sink call, a save recording that item's url happens before the
next sink call is attempted. -/
def perItemPersisted : List Event → Bool
  | [] => true
  | .send i true :: rest => savedBeforeNextSend i.url rest && perItemPersisted rest
  | _ :: rest => perItemPersisted rest

/-! ### Step lemmas for the newline-collapsing scan -/

theorem isTripleHead_eq_true (t : List Char) :
    isTripleHead ('\n' :: '\n' :: '\n' :: t) = true := by
  rfl

theorem isTripleHead_iff (s : List Char) :
    isTripleHead s = true ↔ ∃ t, s = '\n' :: '\n' :: '\n' :: t := by
  constructor
  · intro h
    rw [isTripleHead.eq_def] at h
    split at h
    · rename_i t
      exact ⟨t, rfl⟩
    · simp at h
  · rintro ⟨t, rfl⟩
    rfl

theorem replaceNNN_triple (t : List Char) :
    replaceNNN ('\n' :: '\n' :: '\n' :: t) = '\n' :: '\n' :: replaceNNN t := by
  rfl

theorem containsNNN_triple (t : List Char) :
    containsNNN ('\n' :: '\n' :: '\n' :: t) = true := by
  rfl

theorem replaceNNN_cons (c : Char) (t : List Char)
    (h : isTripleHead (c :: t) = false) :
    replaceNNN (c :: t) = c :: replaceNNN t := by
  rw [replaceNNN.eq_def]
  split
  · rename_i rest heq
    obtain ⟨rfl, rfl⟩ : c = '\n' ∧ t = '\n' :: '\n' :: rest := by
      injection heq with h1 h2
      exact ⟨h1, h2⟩
    rw [isTripleHead_eq_true] at h
    exact absurd h (by simp)
  · rename_i x c2 rest hguard heq
    obtain ⟨rfl, rfl⟩ : c = c2 ∧ t = rest := by
      injection heq with h1 h2
      exact ⟨h1, h2⟩
    rfl
  · rename_i heq
    exact absurd heq (by simp)

theorem containsNNN_cons (c : Char) (t : List Char)
    (h : isTripleHead (c :: t) = false) :
    containsNNN (c :: t) = containsNNN t := by
  rw [containsNNN.eq_def]
  split
  · rename_i rest heq
    obtain ⟨rfl, rfl⟩ : c = '\n' ∧ t = '\n' :: '\n' :: rest := by
      injection heq with h1 h2
      exact ⟨h1, h2⟩
    rw [isTripleHead_eq_true] at h
    exact absurd h (by simp)
  · rename_i x c2 rest hguard heq
    obtain ⟨rfl, rfl⟩ : c = c2 ∧ t = rest := by
      injection heq with h1 h2
      exact ⟨h1, h2⟩
    rfl
  · rename_i heq
    exact absurd heq (by simp)

/-- Strong induction on the length of a character list. -/
theorem lengthInd {P : List Char → Prop}
    (ih : ∀ s, (∀ t : List Char, t.length < s.length → P t) → P s)
    (s : List Char) : P s := by
  have H : ∀ n (s : List Char), s.length ≤ n → P s := by
    intro n
    induction n with
    | zero =>
      intro s hs
      exact ih s (fun t ht => absurd (lt_of_lt_of_le ht hs) (Nat.not_lt_zero _))
    | succ n IHn =>
      intro s hs
      exact ih s (fun t ht => IHn t (by omega))
  exact H s.length s le_rfl

theorem length_replaceNNN_le (s : List Char) :
    (replaceNNN s).length ≤ s.length := by
  induction s using lengthInd with
  | ih s IH =>
    match s with
    | [] => simp [replaceNNN]
    | c :: t =>
      cases h3 : isTripleHead (c :: t) with
      | true =>
        obtain ⟨u, hu⟩ := (isTripleHead_iff _).1 h3
        obtain ⟨rfl, rfl⟩ : c = '\n' ∧ t = '\n' :: '\n' :: u := by
          injection hu with h1 h2
          exact ⟨h1, h2⟩
        rw [replaceNNN_triple]
        have := IH u (by simp only [List.length_cons]; omega)
        simp only [List.length_cons]
        omega
      | false =>
        rw [replaceNNN_cons c t h3]
        have := IH t (by simp only [List.length_cons]; omega)
        simp only [List.length_cons]
        omega

theorem length_replaceNNN_lt (s : List Char) (h : containsNNN s = true) :
    (replaceNNN s).length < s.length := by
  induction s using lengthInd with
  | ih s IH =>
    match s with
    | [] => simp [containsNNN] at h
    | c :: t =>
      cases h3 : isTripleHead (c :: t) with
      | true =>
        obtain ⟨u, hu⟩ := (isTripleHead_iff _).1 h3
        obtain ⟨rfl, rfl⟩ : c = '\n' ∧ t = '\n' :: '\n' :: u := by
          injection hu with h1 h2
          exact ⟨h1, h2⟩
        rw [replaceNNN_triple]
        have := length_replaceNNN_le u
        simp only [List.length_cons]
        omega
      | false =>
        rw [containsNNN_cons c t h3] at h
        rw [replaceNNN_cons c t h3]
        have := IH t (by simp only [List.length_cons]; omega) h
        simp only [List.length_cons]
        omega

theorem collapseGo_succ (f : Nat) (s : List Char) (h : s.length ≤ f) :
    collapseGo (f + 1) s = collapseGo f s := by
  induction f generalizing s with
  | zero =>
    obtain rfl : s = [] := List.length_eq_zero.1 (Nat.le_zero.1 h)
    rfl
  | succ f IH =>
    rw [show collapseGo (f + 1 + 1) s =
          if containsNNN s then collapseGo (f + 1) (replaceNNN s) else s from rfl,
        show collapseGo (f + 1) s =
          if containsNNN s then collapseGo f (replaceNNN s) else s from rfl]
    cases hc : containsNNN s with
    | true =>
      simp only [hc, if_true]
      exact IH (replaceNNN s)
        (by have := length_replaceNNN_lt s hc; omega)
    | false => simp [hc]

theorem collapseGo_of_le (g f : Nat) (s : List Char)
    (hf : s.length ≤ f) (hfg : f ≤ g) : collapseGo g s = collapseGo f s := by
  induction g with
  | zero =>
    obtain rfl : f = 0 := Nat.le_zero.1 hfg
    rfl
  | succ g IH =>
    rcases Nat.lt_or_ge f (g + 1) with hlt | hge
    · have hle : f ≤ g := Nat.lt_succ_iff.1 hlt
      rw [collapseGo_succ g s (le_trans hf hle)]
      exact IH hle
    · obtain rfl : f = g + 1 := Nat.le_antisymm hfg hge
      rfl

/-- The fueled definition satisfies the defining equation of the source's
`for strings.Contains(content, "\n\n\n")` loop. -/
theorem collapseNewlines_eq_loop (s : List Char) :
    collapseNewlines s =
      if containsNNN s then collapseNewlines (replaceNNN s) else s := by
  match s with
  | [] => rfl
  | c :: t =>
    have h1 : collapseNewlines (c :: t) =
        if containsNNN (c :: t) then collapseGo t.length (replaceNNN (c :: t))
        else (c :: t) := rfl
    rw [h1]
    cases hc : containsNNN (c :: t) with
    | false => simp [hc]
    | true =>
      simp only [hc, if_true]
      show collapseGo t.length (replaceNNN (c :: t)) =
        collapseNewlines (replaceNNN (c :: t))
      unfold collapseNewlines
      exact collapseGo_of_le t.length (replaceNNN (c :: t)).length
        (replaceNNN (c :: t)) le_rfl
        (by
          have := length_replaceNNN_lt (c :: t) hc
          simp only [List.length_cons] at this
          omega)

/-- The loop really reaches its exit condition: no triple newline survives. -/
theorem containsNNN_collapseNewlines (s : List Char) :
    containsNNN (collapseNewlines s) = false := by
  induction s using lengthInd with
  | ih s IH =>
    rw [collapseNewlines_eq_loop]
    cases hc : containsNNN s with
    | false => simpa using hc
    | true =>
      simp only [if_true]
      exact IH (replaceNNN s) (length_replaceNNN_lt s hc)

theorem normRuns_cons_of_ne (c : Char) (u : List Char) (h : c ≠ '\n') :
    normRuns (c :: u) = c :: normRuns u := by
  match u with
  | [] => rfl
  | [d] => rfl
  | d :: e :: r =>
    rw [normRuns]
    rw [if_neg (by simp [h])]

theorem normRuns_nl_cons (d : Char) (u : List Char) (h : d ≠ '\n') :
    normRuns ('\n' :: d :: u) = '\n' :: normRuns (d :: u) := by
  match u with
  | [] => rfl
  | e :: r =>
    rw [normRuns]
    rw [if_neg (by simp [h])]

theorem normRuns_triple (t : List Char) :
    normRuns ('\n' :: '\n' :: '\n' :: t) = normRuns ('\n' :: '\n' :: t) := by
  rw [normRuns]
  rw [if_pos ⟨rfl, rfl, rfl⟩]

theorem length_dropNl_le (s : List Char) : (dropNl s).length ≤ s.length :=
  (List.dropWhile_sublist _).length_le

theorem dropNl_cons_of_ne (c : Char) (u : List Char) (h : c ≠ '\n') :
    dropNl (c :: u) = c :: u := by
  simp [dropNl, List.dropWhile_cons, h]

theorem dropNl_nl_cons (u : List Char) : dropNl ('\n' :: u) = dropNl u := by
  simp [dropNl, List.dropWhile_cons]

/-- Two leading newlines followed by anything normalize to two newlines
followed by the normalization of what comes after the whole leading run. -/
theorem normRuns_two_nl (u : List Char) :
    normRuns ('\n' :: '\n' :: u) = '\n' :: '\n' :: normRuns (dropNl u) := by
  induction u with
  | nil => rfl
  | cons c u IHu =>
    by_cases hc : c = '\n'
    · subst hc
      rw [normRuns_triple, IHu, dropNl_nl_cons]
    · rw [dropNl_cons_of_ne c u hc]
      rw [normRuns]
      rw [if_neg (by simp [hc])]
      rw [normRuns_nl_cons c u hc]

theorem dropNl_replaceNNN (t : List Char) :
    dropNl (replaceNNN t) = replaceNNN (dropNl t) := by
  induction t using lengthInd with
  | ih t IH =>
    match t with
    | [] => rfl
    | c :: u =>
      cases h3 : isTripleHead (c :: u) with
      | true =>
        obtain ⟨v, hv⟩ := (isTripleHead_iff _).1 h3
        obtain ⟨rfl, rfl⟩ : c = '\n' ∧ u = '\n' :: '\n' :: v := by
          injection hv with h1 h2
          exact ⟨h1, h2⟩
        rw [replaceNNN_triple, dropNl_nl_cons, dropNl_nl_cons, dropNl_nl_cons,
          dropNl_nl_cons, dropNl_nl_cons]
        exact IH v (by simp only [List.length_cons]; omega)
      | false =>
        rw [replaceNNN_cons c u h3]
        by_cases hc : c = '\n'
        · subst hc
          rw [dropNl_nl_cons, dropNl_nl_cons]
          exact IH u (by simp only [List.length_cons]; omega)
        · rw [dropNl_cons_of_ne c u hc]
          rw [dropNl_cons_of_ne c (replaceNNN u) hc]
          rw [replaceNNN_cons c u h3]

theorem isTripleHead_of_ne (d : Char) (u : List Char) (h : d ≠ '\n') :
    isTripleHead (d :: u) = false := by
  rw [isTripleHead.eq_def]
  split
  · rename_i rest heq
    injection heq with h1 h2
    exact absurd h1 h
  · rfl

theorem isTripleHead_nl_of_ne (e : Char) (v : List Char) (h : e ≠ '\n') :
    isTripleHead ('\n' :: e :: v) = false := by
  rw [isTripleHead.eq_def]
  split
  · rename_i rest heq
    injection heq with h1 h2
    injection h2 with h3 h4
    exact absurd h3 h
  · rfl

/-- One pass of the replacement removes one newline from each over-long run:
it does not change the normalized form. -/
theorem normRuns_replaceNNN (s : List Char) :
    normRuns (replaceNNN s) = normRuns s := by
  induction s using lengthInd with
  | ih s IH =>
    match s with
    | [] => rfl
    | c :: t =>
      cases h3 : isTripleHead (c :: t) with
      | true =>
        obtain ⟨u, hu⟩ := (isTripleHead_iff _).1 h3
        obtain ⟨rfl, rfl⟩ : c = '\n' ∧ t = '\n' :: '\n' :: u := by
          injection hu with h1 h2
          exact ⟨h1, h2⟩
        rw [replaceNNN_triple, normRuns_triple, normRuns_two_nl,
          normRuns_two_nl, dropNl_replaceNNN]
        have := IH (dropNl u)
          (by
            have := length_dropNl_le u
            simp only [List.length_cons]
            omega)
        rw [this]
      | false =>
        rw [replaceNNN_cons c t h3]
        by_cases hc : c = '\n'
        · subst hc
          match t with
          | [] => rfl
          | d :: u =>
            by_cases hd : d = '\n'
            · subst hd
              match u with
              | [] => rfl
              | e :: v =>
                have he : e ≠ '\n' := by
                  intro he
                  subst he
                  simp [isTripleHead_eq_true] at h3
                rw [replaceNNN_cons '\n' (e :: v) (isTripleHead_nl_of_ne e v he),
                  replaceNNN_cons e v (isTripleHead_of_ne e v he),
                  normRuns_two_nl, normRuns_two_nl,
                  dropNl_cons_of_ne e (replaceNNN v) he,
                  dropNl_cons_of_ne e v he,
                  normRuns_cons_of_ne e (replaceNNN v) he,
                  normRuns_cons_of_ne e v he,
                  IH v (by simp only [List.length_cons]; omega)]
            · rw [replaceNNN_cons d u (isTripleHead_of_ne d u hd),
                normRuns_nl_cons d (replaceNNN u) hd,
                normRuns_nl_cons d u hd,
                normRuns_cons_of_ne d (replaceNNN u) hd,
                normRuns_cons_of_ne d u hd,
                IH u (by simp only [List.length_cons]; omega)]
        · rw [normRuns_cons_of_ne c (replaceNNN t) hc,
            normRuns_cons_of_ne c t hc,
            IH t (by simp only [List.length_cons]; omega)]

/-- A string with no triple newline is already in normal form. -/
theorem normRuns_of_not_containsNNN (s : List Char)
    (h : containsNNN s = false) : normRuns s = s := by
  induction s using lengthInd with
  | ih s IH =>
    match s with
    | [] => rfl
    | c :: t =>
      cases h3 : isTripleHead (c :: t) with
      | true =>
        obtain ⟨u, hu⟩ := (isTripleHead_iff _).1 h3
        rw [hu, containsNNN_triple] at h
        exact absurd h (by simp)
      | false =>
        rw [containsNNN_cons c t h3] at h
        by_cases hc : c = '\n'
        · subst hc
          match t with
          | [] => rfl
          | d :: u =>
            by_cases hd : d = '\n'
            · subst hd
              match u with
              | [] => rfl
              | e :: v =>
                have he : e ≠ '\n' := by
                  intro he
                  subst he
                  simp [isTripleHead_eq_true] at h3
                rw [normRuns_two_nl, dropNl_cons_of_ne e v he]
                rw [IH (e :: v)
                  (by simp only [List.length_cons]; omega)
                  (by rwa [containsNNN_cons '\n' (e :: v)
                    (isTripleHead_nl_of_ne e v he)] at h)]
            · rw [normRuns_nl_cons d u hd]
              rw [IH (d :: u) (by simp only [List.length_cons]; omega) h]
        · rw [normRuns_cons_of_ne c t hc]
          rw [IH t (by simp only [List.length_cons]; omega) h]

/-- The source's collapsing loop computes exactly the spec's normalization:
every maximal run of three or more newlines becomes exactly two, and nothing
else changes. -/
theorem collapseNewlines_eq_normRuns (s : List Char) :
    collapseNewlines s = normRuns s := by
  induction s using lengthInd with
  | ih s IH =>
    rw [collapseNewlines_eq_loop]
    cases hc : containsNNN s with
    | true =>
      simp only [if_true]
      rw [IH (replaceNNN s) (length_replaceNNN_lt s hc)]
      exact normRuns_replaceNNN s
    | false =>
      simp only [Bool.false_eq_true, if_false]
      exact (normRuns_of_not_containsNNN s hc).symm

/-! ### Dispatcher lemmas -/

/-- The collection loop of `part_000` takes the longest newest-first segment
of items whose url differs from the stored pointer, and reports whether the
pointer was found at all. In particular, when the pointer matches no item the
collected segment is the whole listing, not the empty one. -/
theorem collectNew_eq (last : String) (news : List NewsItem) :
    collectNew last news =
      (news.takeWhile (fun i => !(i.url == last)),
        news.any (fun i => i.url == last)) := by
  induction news with
  | nil => rfl
  | cons n rest IH =>
    by_cases h : n.url = last
    · simp [collectNew, h, List.takeWhile_cons]
    · simp [collectNew, h, List.takeWhile_cons, IH]

theorem collectNew_of_not_found (last : String) (news : List NewsItem)
    (h : ∀ i ∈ news, i.url ≠ last) : collectNew last news = (news, false) := by
  rw [collectNew_eq, Prod.mk.injEq]
  refine ⟨?_, ?_⟩
  · rw [List.takeWhile_eq_self_iff]
    intro i hi
    simp [h i hi]
  · simp only [List.any_eq_false]
    intro i hi
    simp [h i hi]

theorem sendsOf_nil : sendsOf [] = [] := rfl

theorem sendsOf_send (i : NewsItem) (ok : Bool) (tr : List Event) :
    sendsOf (.send i ok :: tr) = .send i ok :: sendsOf tr := rfl

theorem sendsOf_save (u : String) (tr : List Event) :
    sendsOf (.save u :: tr) = sendsOf tr := rfl

theorem sendsOf_append (tr1 tr2 : List Event) :
    sendsOf (tr1 ++ tr2) = sendsOf tr1 ++ sendsOf tr2 := by
  simp [sendsOf, List.filter_append]

theorem sendsOf_map_send (s : NewsItem → Bool) (l : List NewsItem) :
    sendsOf (l.map (fun i => Event.send i (s i))) =
      l.map (fun i => Event.send i (s i)) := by
  induction l with
  | nil => rfl
  | cons i l IH => rw [List.map_cons, sendsOf_send, IH]

/-- On a fresh pointer (empty `last_post_url`) and a listing whose urls are
all non-empty, `part_000`'s dispatch attempts every item, oldest first. -/
theorem runPointer_fresh (s : NewsItem → Bool) (news : List NewsItem)
    (h : ∀ i ∈ news, i.url ≠ "") :
    sendsOf (runPointer s "" news).1 =
      news.reverse.map (fun i => Event.send i (s i)) := by
  match news with
  | [] => rfl
  | n0 :: rest =>
    have hc : collectNew "" (n0 :: rest) = (n0 :: rest, false) :=
      collectNew_of_not_found "" (n0 :: rest) h
    rw [runPointer, hc]
    rw [sendsOf_append, sendsOf_map_send, sendsOf_save, sendsOf_nil,
      List.append_nil]

/-- One pass of `repost_magti_news.go`'s dispatch loop over distinct urls
none of which equals the incoming pointer attempts every item in order. -/
theorem sendsOf_runSkipGo (s : NewsItem → Bool) (l : List NewsItem)
    (cur : String) (hcur : cur ∉ l.map (fun i => i.url))
    (hnd : (l.map (fun i => i.url)).Nodup) :
    sendsOf (runSkipGo s cur l).1 = l.map (fun i => Event.send i (s i)) := by
  induction l generalizing cur with
  | nil => rfl
  | cons item rest IH =>
    simp only [List.map_cons, List.mem_cons, not_or] at hcur
    obtain ⟨hne, hcur2⟩ := hcur
    simp only [List.map_cons, List.nodup_cons] at hnd
    obtain ⟨hhd, hnd2⟩ := hnd
    rw [List.map_cons, runSkipGo]
    rw [if_neg (fun hh => hne hh.symm)]
    cases hs : s item with
    | true =>
      simp only [if_true]
      rw [sendsOf_send, sendsOf_save]
      rw [IH item.url hhd hnd2]
    | false =>
      simp only [Bool.false_eq_true, if_false]
      rw [sendsOf_send]
      rw [IH cur hcur2 hnd2]

theorem sendsOf_runSkip (s : NewsItem → Bool) (news : List NewsItem)
    (h : ∀ i ∈ news, i.url ≠ "") (hnd : (news.map (fun i => i.url)).Nodup) :
    sendsOf (runSkip s "" news).1 =
      news.reverse.map (fun i => Event.send i (s i)) := by
  rw [runSkip]
  rw [sendsOf_runSkipGo s news.reverse ""
    (by
      simp only [List.mem_map, List.mem_reverse, not_exists, not_and]
      intro i hi hu
      exact h i hi hu)
    (by
      rw [show List.map (fun i => i.url) news.reverse =
        (List.map (fun i => i.url) news).reverse from List.map_reverse _ _,
        List.nodup_reverse]
      exact hnd)]

theorem perItemPersisted_runSkipGo (s : NewsItem → Bool) (l : List NewsItem)
    (cur : String) : perItemPersisted (runSkipGo s cur l).1 = true := by
  induction l generalizing cur with
  | nil => rfl
  | cons item rest IH =>
    rw [runSkipGo]
    by_cases h : item.url = cur
    · rw [if_pos h]
      exact IH cur
    · rw [if_neg h]
      cases hs : s item with
      | true =>
        simp only [if_true]
        show (savedBeforeNextSend item.url
            (Event.save item.url :: (runSkipGo s item.url rest).1) &&
          perItemPersisted (Event.save item.url :: (runSkipGo s item.url rest).1)) = true
        rw [show savedBeforeNextSend item.url
            (Event.save item.url :: (runSkipGo s item.url rest).1) =
            if item.url == item.url then true
            else savedBeforeNextSend item.url (runSkipGo s item.url rest).1 from rfl]
        simp only [beq_self_eq_true, if_true]
        show perItemPersisted (runSkipGo s item.url rest).1 = true
        exact IH item.url
      | false =>
        simp only [Bool.false_eq_true, if_false]
        show perItemPersisted (runSkipGo s cur rest).1 = true
        exact IH cur

/-- Every run of `repost_magti_news.go`'s dispatcher persists per item. -/
theorem perItemPersisted_runSkip (s : NewsItem → Bool) (last : String)
    (news : List NewsItem) : perItemPersisted (runSkip s last news).1 = true :=
  perItemPersisted_runSkipGo s news.reverse last

/-- Both dispatchers, on a three-item listing none of whose pairwise-distinct
urls equals the stored pointer, call the sink oldest-first: `a`, `b`, `c`. -/
theorem dispatchers_send_oldest_first (c b a : NewsItem) (s : NewsItem → Bool)
    (last : String)
    (hal : a.url ≠ last) (hbl : b.url ≠ last) (hcl : c.url ≠ last)
    (hba : b.url ≠ a.url) (hca : c.url ≠ a.url) (hcb : c.url ≠ b.url) :
    sendsOf (runPointer s last [c, b, a]).1 =
      [Event.send a (s a), Event.send b (s b), Event.send c (s c)] ∧
    sendsOf (runSkip s last [c, b, a]).1 =
      [Event.send a (s a), Event.send b (s b), Event.send c (s c)] := by
  constructor
  · have hc : collectNew last [c, b, a] = ([c, b, a], false) :=
      collectNew_of_not_found last [c, b, a]
        (by
          intro i hi
          simp only [List.mem_cons, List.not_mem_nil, or_false] at hi
          rcases hi with rfl | rfl | rfl
          · exact hcl
          · exact hbl
          · exact hal)
    rw [runPointer, hc]
    rfl
  · rw [runSkip]
    show sendsOf (runSkipGo s last [a, b, c]).1 = _
    rw [runSkipGo, if_neg (fun hh => hal hh)]
    cases hsa : s a with
    | true =>
      simp only [if_true]
      rw [sendsOf_send, sendsOf_save]
      rw [runSkipGo, if_neg (fun hh => hba hh)]
      cases hsb : s b with
      | true =>
        simp only [if_true]
        rw [sendsOf_send, sendsOf_save]
        rw [runSkipGo, if_neg (fun hh => hcb hh)]
        cases hsc : s c with
        | true => simp only [if_true]; rw [sendsOf_send, sendsOf_save]; rfl
        | false =>
          simp only [Bool.false_eq_true, if_false]
          rw [sendsOf_send]
          rfl
      | false =>
        simp only [Bool.false_eq_true, if_false]
        rw [sendsOf_send]
        rw [runSkipGo, if_neg (fun hh => hca hh)]
        cases hsc : s c with
        | true => simp only [if_true]; rw [sendsOf_send, sendsOf_save]; rfl
        | false =>
          simp only [Bool.false_eq_true, if_false]
          rw [sendsOf_send]
          rfl
    | false =>
      simp only [Bool.false_eq_true, if_false]
      rw [sendsOf_send]
      rw [runSkipGo, if_neg (fun hh => hbl hh)]
      cases hsb : s b with
      | true =>
        simp only [if_true]
        rw [sendsOf_send, sendsOf_save]
        rw [runSkipGo, if_neg (fun hh => hcb hh)]
        cases hsc : s c with
        | true => simp only [if_true]; rw [sendsOf_send, sendsOf_save]; rfl
        | false =>
          simp only [Bool.false_eq_true, if_false]
          rw [sendsOf_send]
          rfl
      | false =>
        simp only [Bool.false_eq_true, if_false]
        rw [sendsOf_send]
        rw [runSkipGo, if_neg (fun hh => hcl hh)]
        cases hsc : s c with
        | true => simp only [if_true]; rw [sendsOf_send, sendsOf_save]; rfl
        | false =>
          simp only [Bool.false_eq_true, if_false]
          rw [sendsOf_send]
          rfl

/-! ### Claim theorems -/

/-- C1: the claim says that when the stored pointer is non-empty and matches
no item of the non-empty listing, the dispatcher publishes exactly one item
(`items[0]`) and never the full listing. The code does the opposite: with
pointer `".../gone"` absent from the two-item listing `[itA, itB]`, the
collection loop collects the whole listing, the batch branch fires, the sink
is called twice (the full listing, oldest first), and only the in-code
recovery branch — which would publish `items[0]` alone — is unreachable.
The pointer does advance to `items[0].url`. -/
theorem c1_anchor_missing_publishes_full_listing :
    (runPointer allOk "https://www.magticom.ge/gone" [itA, itB]).1 =
      [Event.send itB true, Event.send itA true, Event.save itA.url] ∧
    (sendsOf (runPointer allOk "https://www.magticom.ge/gone" [itA, itB]).1).length
      = 2 ∧
    (runPointer allOk "https://www.magticom.ge/gone" [itA, itB]).2 = itA.url := by
  decide

/-- C2: the claim says a second dispatch run over an unchanged listing and
ledger makes zero sink calls. In `repost_magti_news.go`'s dispatcher a first
completed run over `[itC, itB, itA]` leaves the pointer at `itC.url`, yet the
second run calls the sink three times (each item is compared only with the
mutating pointer). `part_000`'s dispatcher does make zero calls. -/
theorem c2_second_run_republishes :
    (runSkip allOk "" [itC, itB, itA]).2 = itC.url ∧
    (sendsOf (runSkip allOk itC.url [itC, itB, itA]).1).length = 3 ∧
    (runPointer allOk itC.url [itC, itB, itA]).1 = [] := by
  decide

/-- C3 counterexample: with stored pointer `".../gone"` matching no item of
the one-item listing `[itA]`, the collected new-item set is `[itA]`, the
whole listing — not empty as the claim states. -/
theorem c3_counterexample :
    (∀ i ∈ [itA], i.url ≠ "https://www.magticom.ge/gone") ∧
    (collectNew "https://www.magticom.ge/gone" [itA]).1 = [itA] ∧
    [itA] ≠ ([] : List NewsItem) := by
  decide

/-- C3 (amended): the new-item set is computed by scanning the listing
newest-first, collecting every item until one whose url equals the stored
pointer (that item excluded), stopping there; and whenever the pointer
matches no item in the listing, the new-item set is the entire listing (not
empty). -/
theorem c3_collection_scan (last : String) (news : List NewsItem) :
    collectNew last news =
      (news.takeWhile (fun i => !(i.url == last)),
        news.any (fun i => i.url == last)) ∧
    ((∀ i ∈ news, i.url ≠ last) → (collectNew last news).1 = news) :=
  ⟨collectNew_eq last news,
    fun h => by rw [collectNew_of_not_found last news h]⟩

/-- C3 witness: the amended scan characterization at a concrete input. -/
theorem c3_witness :
    collectNew "x" [itB] =
      ([itB].takeWhile (fun i => !(i.url == "x")),
        [itB].any (fun i => i.url == "x")) ∧
    (collectNew "x" [itB]).1 = [itB] :=
  ⟨(c3_collection_scan "x" [itB]).1,
    (c3_collection_scan "x" [itB]).2 (by decide)⟩

/-- C4 counterexample: in `part_000`'s dispatcher, with listing `[itB, itA]`
(`itB` newest) and a sink that delivers `itA` but fails on `itB`, the run
records the failed item's url `itB.url` as the pointer, and a subsequent run
over the unchanged listing produces no events at all — `itB` is never
offered again. -/
theorem c4_counterexample :
    runPointer (fun i => !(i.url == itB.url)) "" [itB, itA] =
      ([Event.send itA true, Event.send itB false, Event.save itB.url],
        itB.url) ∧
    (runPointer allOk itB.url [itB, itA]).1 = [] := by
  decide

/-- C4 (amended): in `repost_magti_news.go`'s dispatcher the property holds:
when the older item `A` succeeds and the newer `B` fails, the run records
`A.url` (a save event for it appears in the trace), never the failed `B.url`,
and a subsequent run over the unchanged listing calls the sink for `B`
again. In `part_000`'s dispatcher the pointer instead advances
unconditionally to the newest collected item once the batch is attempted, so
a failed item can be recorded and skipped thereafter. -/
theorem c4_failed_item_stays_candidate (A B : NewsItem)
    (s2 : NewsItem → Bool) (hba : B.url ≠ A.url) (ha : A.url ≠ "") :
    (runSkip (fun i => i.url == A.url) "" [B, A]).2 = A.url ∧
    Event.save A.url ∈ (runSkip (fun i => i.url == A.url) "" [B, A]).1 ∧
    (runSkip (fun i => i.url == A.url) "" [B, A]).2 ≠ B.url ∧
    Event.send B (s2 B) ∈
      (runSkip s2 (runSkip (fun i => i.url == A.url) "" [B, A]).2
        [B, A]).1 := by
  have h1 : runSkip (fun i => i.url == A.url) "" [B, A] =
      ([Event.send A true, Event.save A.url, Event.send B false], A.url) := by
    show runSkipGo (fun i => i.url == A.url) "" [A, B] = _
    rw [runSkipGo, if_neg ha]
    simp only [beq_self_eq_true, if_true]
    rw [runSkipGo, if_neg hba]
    rw [show (B.url == A.url) = false from beq_eq_false_iff_ne.mpr hba]
    simp only [Bool.false_eq_true, if_false]
    rfl
  rw [h1]
  refine ⟨rfl, by simp, fun hh => hba hh.symm, ?_⟩
  show Event.send B (s2 B) ∈ (runSkipGo s2 A.url [A, B]).1
  rw [runSkipGo, if_pos rfl]
  rw [runSkipGo, if_neg hba]
  cases hs : s2 B with
  | true => simp [hs]
  | false => simp [hs]

/-- C4 witness: the amended property at concrete items. -/
theorem c4_witness :
    (runSkip (fun i => i.url == itA.url) "" [itB, itA]).2 = itA.url ∧
    Event.send itB true ∈
      (runSkip allOk (runSkip (fun i => i.url == itA.url) "" [itB, itA]).2
        [itB, itA]).1 :=
  ⟨(c4_failed_item_stays_candidate itA itB allOk (by decide) (by decide)).1,
    (c4_failed_item_stays_candidate itA itB allOk (by decide)
      (by decide)).2.2.2⟩

/-- C5: for a new-item set `[c, b, a]` (newest first, none matching the
stored pointer, urls pairwise distinct), both dispatchers make the sink
observe the calls oldest-first: `a`, then `b`, then `c`, whatever each
call's outcome. -/
theorem c5_sink_observes_oldest_first (c b a : NewsItem)
    (s : NewsItem → Bool) (last : String)
    (hal : a.url ≠ last) (hbl : b.url ≠ last) (hcl : c.url ≠ last)
    (hba : b.url ≠ a.url) (hca : c.url ≠ a.url) (hcb : c.url ≠ b.url) :
    sendsOf (runPointer s last [c, b, a]).1 =
      [Event.send a (s a), Event.send b (s b), Event.send c (s c)] ∧
    sendsOf (runSkip s last [c, b, a]).1 =
      [Event.send a (s a), Event.send b (s b), Event.send c (s c)] :=
  dispatchers_send_oldest_first c b a s last hal hbl hcl hba hca hcb

/-- C5 witness: the ordering property at concrete items. -/
theorem c5_witness :
    sendsOf (runPointer allOk "" [itC, itB, itA]).1 =
      [Event.send itA true, Event.send itB true, Event.send itC true] ∧
    sendsOf (runSkip allOk "" [itC, itB, itA]).1 =
      [Event.send itA true, Event.send itB true, Event.send itC true] :=
  c5_sink_observes_oldest_first itC itB itA allOk "" (by decide) (by decide)
    (by decide) (by decide) (by decide) (by decide)

/-- C6 counterexample: in `part_000`'s dispatcher a fresh run over
`[itB, itA]` sends `itA` successfully and then attempts `itB` with no save
in between; the single save comes only after the whole batch. So persistence
is batched at end-of-run there, violating the claim. -/
theorem c6_counterexample :
    (runPointer allOk "" [itB, itA]).1 =
      [Event.send itA true, Event.send itB true, Event.save itB.url] ∧
    perItemPersisted (runPointer allOk "" [itB, itA]).1 = false := by
  decide

/-- C6 (amended): in `repost_magti_news.go`'s dispatcher every run's trace
is per-item persisted — after each successful sink call, a save recording
that item's url occurs before the next sink call. In `part_000`'s dispatcher
persistence is instead a single end-of-batch save of the newest collected
item's url, so a mid-run crash there can lose every confirmation of the
run. -/
theorem c6_skip_dispatcher_persists_per_item (s : NewsItem → Bool)
    (last : String) (news : List NewsItem) :
    perItemPersisted (runSkip s last news).1 = true :=
  perItemPersisted_runSkip s last news

/-- C7: the formatter maps the example document to
`"Hello\n\n• One\n• Two\n"` up to final trimming; the collapsing loop equals
the spec's normalization (every maximal run of three or more newlines
becomes exactly two, nothing else changes); and an input of the form
`X ++ "\n\n\n\n" ++ Y` with `X`, `Y` newline-free contexts collapses to
`X ++ "\n\n" ++ Y`. -/
theorem c7_formatter_roundtrip_and_collapse :
    parseHtmlContent exampleNodes = trimSpace "Hello\n\n• One\n• Two\n".data ∧
    parseHtmlContent exampleNodes = "Hello\n\n• One\n• Two".data ∧
    (∀ s : List Char, collapseNewlines s = normRuns s) ∧
    (∀ x y : Char, x ≠ '\n' → y ≠ '\n' →
      collapseNewlines [x, '\n', '\n', '\n', '\n', y] = [x, '\n', '\n', y]) := by
  refine ⟨by decide, by decide, collapseNewlines_eq_normRuns, ?_⟩
  intro x y hx hy
  rw [collapseNewlines_eq_normRuns]
  rw [show ([x, '\n', '\n', '\n', '\n', y] : List Char) =
    x :: ('\n' :: '\n' :: '\n' :: ('\n' :: [y])) from rfl]
  rw [normRuns_cons_of_ne x _ hx]
  rw [normRuns_triple, normRuns_triple, normRuns_two_nl,
    dropNl_cons_of_ne y [] hy]
  rfl

/-- C7 witness: the generic collapse instance at concrete characters. -/
theorem c7_witness :
    collapseNewlines ['X', '\n', '\n', '\n', '\n', 'Y'] =
      ['X', '\n', '\n', 'Y'] :=
  c7_formatter_roundtrip_and_collapse.2.2.2 'X' 'Y' (by decide) (by decide)

/-- C8: a listing entry whose per-item content fetch fails is still emitted,
in place, with `Text` and `SectionContent` left empty, and the extraction of
the entries before and after it is unaffected. -/
theorem c8_content_fetch_failure_nonfatal
    (fetch : String → Option (String × String)) (pre post : List ListingEntry)
    (e : ListingEntry) (u : String) (hhref : e.href = some u)
    (hfail : fetch (resolveUrl u) = none) :
    fetchWonderDaysNews fetch (pre ++ e :: post) =
      fetchWonderDaysNews fetch pre ++
        (⟨String.mk (trimSpace e.text.data), resolveUrl u, e.postDate, "", ""⟩ :
          NewsItem) ::
        fetchWonderDaysNews fetch post ∧
    (⟨String.mk (trimSpace e.text.data), resolveUrl u, e.postDate, "", ""⟩ :
      NewsItem).text = "" ∧
    (⟨String.mk (trimSpace e.text.data), resolveUrl u, e.postDate, "", ""⟩ :
      NewsItem).sectionContent = "" := by
  refine ⟨?_, rfl, rfl⟩
  simp [fetchWonderDaysNews, List.filterMap_append, List.filterMap_cons,
    mkNewsItem, hhref, hfail]

/-- C8 witness: a failing fetch on the first of two entries still yields
both items, the first with empty content fields. -/
theorem c8_witness :
    fetchWonderDaysNews (fun _ => none) ([] ++ entE :: [entF]) =
      fetchWonderDaysNews (fun _ => none) [] ++
        (⟨String.mk (trimSpace entE.text.data), resolveUrl "/en/promo",
          entE.postDate, "", ""⟩ : NewsItem) ::
        fetchWonderDaysNews (fun _ => none) [entF] :=
  (c8_content_fetch_failure_nonfatal (fun _ => none) [] [entF] entE
    "/en/promo" rfl rfl).1

/-- C9: each iteration of the newline-collapsing loop strictly decreases the
string's length; the total fueled function satisfies the loop's defining
equation, and the loop exit condition really is reached — hence the
formatter is a total function of its input. -/
theorem c9_collapse_loop_terminates :
    ∀ s : List Char,
      (containsNNN s = true → (replaceNNN s).length < s.length) ∧
      collapseNewlines s =
        (if containsNNN s then collapseNewlines (replaceNNN s) else s) ∧
      containsNNN (collapseNewlines s) = false :=
  fun s => ⟨length_replaceNNN_lt s, collapseNewlines_eq_loop s,
    containsNNN_collapseNewlines s⟩

/-- C9 witness: the strict decrease at a concrete input containing a triple
newline. -/
theorem c9_witness :
    containsNNN "a\n\n\n\nb".data = true ∧
    (replaceNNN "a\n\n\n\nb".data).length < "a\n\n\n\nb".data.length :=
  ⟨by decide, (c9_collapse_loop_terminates "a\n\n\n\nb".data).1 (by decide)⟩

/-- C10: loading a missing ledger file yields an empty pointer without
error; consequently a first-ever run (empty pointer) over a listing of items
with real (non-empty, pairwise distinct) urls attempts to publish the entire
listing oldest-first, in both dispatchers — not nothing, and not only the
newest item. -/
theorem c10_first_run_publishes_everything :
    loadLastPostData .missing = .ok ⟨""⟩ ∧
    (∀ (s : NewsItem → Bool) (news : List NewsItem),
      (∀ i ∈ news, i.url ≠ "") →
      sendsOf (runPointer s "" news).1 =
        news.reverse.map (fun i => Event.send i (s i))) ∧
    (∀ (s : NewsItem → Bool) (news : List NewsItem),
      (∀ i ∈ news, i.url ≠ "") → (news.map (fun i => i.url)).Nodup →
      sendsOf (runSkip s "" news).1 =
        news.reverse.map (fun i => Event.send i (s i))) :=
  ⟨rfl, runPointer_fresh, sendsOf_runSkip⟩

/-- C10 witness: a first-ever run over a concrete two-item listing attempts
both items, oldest first, in both dispatchers. -/
theorem c10_witness :
    sendsOf (runPointer allOk "" [itB, itA]).1 =
      [Event.send itA true, Event.send itB true] ∧
    sendsOf (runSkip allOk "" [itB, itA]).1 =
      [Event.send itA true, Event.send itB true] :=
  ⟨c10_first_run_publishes_everything.2.1 allOk [itB, itA] (by decide),
    c10_first_run_publishes_everything.2.2 allOk [itB, itA] (by decide)
      (by decide)⟩

end Tgbot
